import Mathlib

/-!
# Verification of the blocktalk / bitcoin-wallet core

Shallow embedding of the parts of the `blocktalk` node-IPC client and the
`bitcoin-wallet` wallet daemon that the checked specification claims are
about, together with proofs settling each claim.

Conventions of the embedding:
* Bytes are `Fin 256`; byte strings are `List (Fin 256)`.
* Machine integers are `Nat` (for the unsigned views `u32`/`u64`) or `Int`
  (for `i32` heights), with truncation made explicit where the source
  truncates.
* The consensus codec for blocks and transactions follows the `rust-bitcoin`
  library that the source calls into (`consensus_decode` / `consensus_encode`
  for `Block`, `Transaction`, `TxIn`, `TxOut`, `Witness`, `VarInt`), including
  the minimal-VarInt checks and the segwit marker/flag discipline.  The
  allocation guards of the library (which only reject additional inputs and
  depend on in-memory struct sizes) are not modelled.
* Fallible operations return `Except`/`Option`; external collaborators whose
  outcome the source merely consumes (the RNG-backed descriptor generator,
  the sqlite-backed wallet store, the node's replies) enter as explicit
  parameters of the embedded functions.
-/

namespace Blocktalk

/-- A byte, as carried on the IPC boundary. -/
abbrev Byte := Fin 256

/-- Truncate a natural number to a byte (the low 8 bits). -/
def byteOfNat (n : Nat) : Byte := ⟨n % 256, Nat.mod_lt _ (by decide)⟩

@[simp] theorem byteOfNat_val (n : Nat) : (byteOfNat n).val = n % 256 := rfl

/-! ## Fixed-width little-endian integers -/

/-- `width`-byte little-endian encoding of `n` (truncating to `256 ^ width`),
as `rust-bitcoin` emits `u8`/`u16`/`u32`/`u64` fields. -/
def encodeLE : Nat → Nat → List Byte
  | 0, _ => []
  | w + 1, n => byteOfNat n :: encodeLE w (n / 256)

/-- Read a `width`-byte little-endian integer from the front of a byte string,
returning the value and the unconsumed tail. -/
def decodeLE : Nat → List Byte → Option (Nat × List Byte)
  | 0, l => some (0, l)
  | _ + 1, [] => none
  | w + 1, b :: l => (decodeLE w l).map (fun p => (b.val + 256 * p.1, p.2))

@[simp] theorem encodeLE_length (w n : Nat) : (encodeLE w n).length = w := by
  induction w generalizing n with
  | zero => rfl
  | succ w ih => simp [encodeLE, ih]

/-- Soundness of the little-endian decoder: an accepted byte string is exactly
the encoding of the returned value followed by the tail, and the value is in
range. -/
theorem decodeLE_sound (w : Nat) (l : List Byte) (n : Nat) (r : List Byte)
    (h : decodeLE w l = some (n, r)) :
    l = encodeLE w n ++ r ∧ n < 256 ^ w := by
  induction w generalizing l n r with
  | zero =>
    simp only [decodeLE, Option.some.injEq, Prod.mk.injEq] at h
    obtain ⟨h1, h2⟩ := h
    subst h1; subst h2
    simp [encodeLE]
  | succ w ih =>
    match l with
    | [] => simp [decodeLE] at h
    | b :: l =>
      cases hdec : decodeLE w l with
      | none => simp [decodeLE, hdec] at h
      | some p =>
        obtain ⟨m, r'⟩ := p
        simp only [decodeLE, hdec, Option.map_some', Option.some.injEq,
          Prod.mk.injEq] at h
        obtain ⟨hn, hr⟩ := h
        obtain ⟨hl, hm⟩ := ih l m r' hdec
        subst hn; subst hr; subst hl
        constructor
        · have hb : (byteOfNat (b.val + 256 * m)) = b := by
            apply Fin.ext
            simp [Nat.add_mul_mod_self_left, Nat.mod_eq_of_lt b.isLt]
          have hd : (b.val + 256 * m) / 256 = m := by
            rw [Nat.add_mul_div_left _ _ (by norm_num : 0 < 256),
              Nat.div_eq_of_lt b.isLt, Nat.zero_add]
          simp [encodeLE, hb, hd]
        · have hb : b.val < 256 := b.isLt
          calc b.val + 256 * m < 256 + 256 * m := by omega
            _ ≤ 256 * 256 ^ w := by
                have h1 := Nat.succ_le_of_lt hm
                nlinarith
            _ = 256 ^ (w + 1) := by ring

/-- Completeness of the little-endian decoder: decoding an in-range value's
encoding returns the value and leaves trailing bytes untouched. -/
theorem decodeLE_complete (w : Nat) (n : Nat) (r : List Byte) (hn : n < 256 ^ w) :
    decodeLE w (encodeLE w n ++ r) = some (n, r) := by
  induction w generalizing n with
  | zero =>
    interval_cases n
    simp [encodeLE, decodeLE]
  | succ w ih =>
    have hdiv : n / 256 < 256 ^ w := by
      rw [Nat.div_lt_iff_lt_mul (by norm_num : 0 < 256)]
      calc n < 256 ^ (w + 1) := hn
        _ = 256 ^ w * 256 := by ring
    have hrec : decodeLE w ((encodeLE w (n / 256)).append r) = some (n / 256, r) :=
      ih (n / 256) hdiv
    simp only [encodeLE, List.cons_append, decodeLE]
    rw [hrec]
    simp only [Option.map_some', byteOfNat_val]
    rw [Nat.mod_add_div]

/-! ## CompactSize / VarInt

`rust-bitcoin`'s `VarInt` codec: the count prefix used for every vector in the
consensus encoding.  Decoding rejects non-minimal forms exactly as the
library does. -/

/-- Canonical CompactSize encoding of `n` (a `u64` count). -/
def encodeVarInt (n : Nat) : List Byte :=
  if n < 253 then [byteOfNat n]
  else if n ≤ 0xFFFF then byteOfNat 253 :: encodeLE 2 n
  else if n ≤ 0xFFFFFFFF then byteOfNat 254 :: encodeLE 4 n
  else byteOfNat 255 :: encodeLE 8 n

/-- CompactSize decoder with the library's non-minimal-encoding rejection. -/
def decodeVarInt : List Byte → Option (Nat × List Byte)
  | [] => none
  | b :: l =>
    if b.val < 253 then some (b.val, l)
    else if b.val = 253 then
      (decodeLE 2 l).bind fun p => if p.1 < 253 then none else some p
    else if b.val = 254 then
      (decodeLE 4 l).bind fun p => if p.1 < 0x10000 then none else some p
    else
      (decodeLE 8 l).bind fun p => if p.1 < 0x100000000 then none else some p

theorem decodeVarInt_sound (l : List Byte) (n : Nat) (r : List Byte)
    (h : decodeVarInt l = some (n, r)) : l = encodeVarInt n ++ r := by
  match l with
  | [] => simp [decodeVarInt] at h
  | b :: l =>
    by_cases h1 : b.val < 253
    · simp only [decodeVarInt, if_pos h1, Option.some.injEq, Prod.mk.injEq] at h
      obtain ⟨hn, hr⟩ := h
      subst hn; subst hr
      have hb : byteOfNat b.val = b := Fin.ext (by simp [Nat.mod_eq_of_lt b.isLt])
      simp [encodeVarInt, if_pos h1, hb]
    · by_cases h2 : b.val = 253
      · simp only [decodeVarInt, if_neg h1, if_pos h2] at h
        cases hdec : decodeLE 2 l with
        | none => rw [hdec] at h; simp at h
        | some p =>
          rw [hdec] at h
          simp only [Option.some_bind] at h
          by_cases hmin : p.1 < 253
          · rw [if_pos hmin] at h; simp at h
          · rw [if_neg hmin] at h
            obtain ⟨q, r'⟩ := p
            simp only [Option.some.injEq, Prod.mk.injEq] at h
            obtain ⟨hn, hr⟩ := h
            subst hn; subst hr
            have hminq : ¬ q < 253 := hmin
            obtain ⟨hl, hlt⟩ := decodeLE_sound 2 l q r' hdec
            have hb : b = byteOfNat 253 := Fin.ext (by simp [h2])
            simp only [encodeVarInt, if_neg (by omega : ¬ q < 253),
              if_pos (by norm_num at hlt ⊢; omega : q ≤ 0xFFFF)]
            simp [hl, hb]
      · by_cases h3 : b.val = 254
        · simp only [decodeVarInt, if_neg h1, if_neg h2, if_pos h3] at h
          cases hdec : decodeLE 4 l with
          | none => rw [hdec] at h; simp at h
          | some p =>
            rw [hdec] at h
            simp only [Option.some_bind] at h
            by_cases hmin : p.1 < 0x10000
            · rw [if_pos hmin] at h; simp at h
            · rw [if_neg hmin] at h
              obtain ⟨q, r'⟩ := p
              simp only [Option.some.injEq, Prod.mk.injEq] at h
              obtain ⟨hn, hr⟩ := h
              subst hn; subst hr
              have hminq : ¬ q < 0x10000 := hmin
              obtain ⟨hl, hlt⟩ := decodeLE_sound 4 l q r' hdec
              have hb : b = byteOfNat 254 := Fin.ext (by simp [h3])
              simp only [encodeVarInt, if_neg (by omega : ¬ q < 253),
                if_neg (by norm_num at hminq ⊢; omega : ¬ q ≤ 0xFFFF),
                if_pos (by norm_num at hlt ⊢; omega : q ≤ 0xFFFFFFFF)]
              simp [hl, hb]
        · simp only [decodeVarInt, if_neg h1, if_neg h2, if_neg h3] at h
          cases hdec : decodeLE 8 l with
          | none => rw [hdec] at h; simp at h
          | some p =>
            rw [hdec] at h
            simp only [Option.some_bind] at h
            by_cases hmin : p.1 < 0x100000000
            · rw [if_pos hmin] at h; simp at h
            · rw [if_neg hmin] at h
              obtain ⟨q, r'⟩ := p
              simp only [Option.some.injEq, Prod.mk.injEq] at h
              obtain ⟨hn, hr⟩ := h
              subst hn; subst hr
              have hminq : ¬ q < 0x100000000 := hmin
              obtain ⟨hl, hlt⟩ := decodeLE_sound 8 l q r' hdec
              have hb : b = byteOfNat 255 := by
                apply Fin.ext
                have hbl := b.isLt
                simp only [byteOfNat_val]
                omega
              simp only [encodeVarInt, if_neg (by omega : ¬ q < 253),
                if_neg (by norm_num at hminq ⊢; omega : ¬ q ≤ 0xFFFF),
                if_neg (by norm_num at hminq ⊢; omega : ¬ q ≤ 0xFFFFFFFF)]
              simp [hl, hb]

theorem decodeVarInt_complete (n : Nat) (r : List Byte) (hn : n < 2 ^ 64) :
    decodeVarInt (encodeVarInt n ++ r) = some (n, r) := by
  by_cases h1 : n < 253
  · have hmod : n % 256 = n := Nat.mod_eq_of_lt (by omega)
    simp [encodeVarInt, if_pos h1, decodeVarInt, hmod, h1]
  · by_cases h2 : n ≤ 0xFFFF
    · have hd := decodeLE_complete 2 n r (by norm_num; omega)
      simp only [encodeVarInt, if_neg h1, if_pos h2, List.cons_append, decodeVarInt,
        byteOfNat_val]
      norm_num
      rw [hd]
      simp only [Option.some_bind]
      rw [if_neg (by omega : ¬ n < 253)]
    · by_cases h3 : n ≤ 0xFFFFFFFF
      · have hd := decodeLE_complete 4 n r (by norm_num; omega)
        simp only [encodeVarInt, if_neg h1, if_neg h2, if_pos h3, List.cons_append,
          decodeVarInt, byteOfNat_val]
        norm_num
        rw [hd]
        simp only [Option.some_bind]
        rw [if_neg (by omega : ¬ n < 0x10000)]
      · have hd := decodeLE_complete 8 n r (by norm_num; omega)
        simp only [encodeVarInt, if_neg h1, if_neg h2, if_neg h3, List.cons_append,
          decodeVarInt, byteOfNat_val]
        norm_num
        rw [hd]
        simp only [Option.some_bind]
        rw [if_neg (by omega : ¬ n < 0x100000000)]

/-! ## Raw byte runs and length-prefixed byte strings -/

/-- Read exactly `k` raw bytes (a fixed-width field such as a 32-byte hash). -/
def readBytes (k : Nat) (l : List Byte) : Option (List Byte × List Byte) :=
  if k ≤ l.length then some (l.take k, l.drop k) else none

theorem readBytes_sound (k : Nat) (l s r : List Byte)
    (h : readBytes k l = some (s, r)) : l = s ++ r ∧ s.length = k := by
  unfold readBytes at h
  split at h
  · next hk =>
    simp only [Option.some.injEq, Prod.mk.injEq] at h
    obtain ⟨hs, hr⟩ := h
    subst hs; subst hr
    exact ⟨(List.take_append_drop k l).symm, List.length_take_of_le hk⟩
  · simp at h

theorem readBytes_complete (s r : List Byte) :
    readBytes s.length (s ++ r) = some (s, r) := by
  unfold readBytes
  rw [if_pos (by simp)]
  simp

/-- A length-prefixed byte string (script, witness element): CompactSize
length followed by the raw bytes. -/
def encodeVarBytes (s : List Byte) : List Byte := encodeVarInt s.length ++ s

def decodeVarBytes (l : List Byte) : Option (List Byte × List Byte) :=
  (decodeVarInt l).bind fun p => readBytes p.1 p.2

theorem decodeVarBytes_sound (l s r : List Byte)
    (h : decodeVarBytes l = some (s, r)) : l = encodeVarBytes s ++ r := by
  unfold decodeVarBytes at h
  cases hdec : decodeVarInt l with
  | none => rw [hdec] at h; simp at h
  | some p =>
    rw [hdec] at h
    simp only [Option.some_bind] at h
    obtain ⟨hl, hlen⟩ := readBytes_sound p.1 p.2 s r h
    have := decodeVarInt_sound l p.1 p.2 hdec
    rw [this, hl, ← hlen]
    simp [encodeVarBytes]

theorem decodeVarBytes_complete (s r : List Byte) (hs : s.length < 2 ^ 64) :
    decodeVarBytes (encodeVarBytes s ++ r) = some (s, r) := by
  unfold decodeVarBytes encodeVarBytes
  rw [List.append_assoc, decodeVarInt_complete s.length (s ++ r) hs]
  simpa using readBytes_complete s r

/-! ## Count-prefixed vectors

`Vec<T>` in the consensus encoding: a CompactSize count followed by that many
elements. -/

/-- Decode exactly `k` consecutive elements with the element decoder `dec`. -/
def decodeRep (dec : List Byte → Option (α × List Byte)) :
    Nat → List Byte → Option (List α × List Byte)
  | 0, l => some ([], l)
  | k + 1, l =>
    (dec l).bind fun p =>
      (decodeRep dec k p.2).map fun q => (p.1 :: q.1, q.2)

/-- Decode a CompactSize count and then that many elements. -/
def decodeVec (dec : List Byte → Option (α × List Byte)) (l : List Byte) :
    Option (List α × List Byte) :=
  (decodeVarInt l).bind fun p => decodeRep dec p.1 p.2

/-- Encode a vector: CompactSize length then the element encodings. -/
def encodeVec (enc : α → List Byte) (xs : List α) : List Byte :=
  encodeVarInt xs.length ++ (xs.map enc).flatten

theorem decodeRep_sound (dec : List Byte → Option (α × List Byte))
    (enc : α → List Byte)
    (hdec : ∀ l a r, dec l = some (a, r) → l = enc a ++ r)
    (k : Nat) (l : List Byte) (xs : List α) (r : List Byte)
    (h : decodeRep dec k l = some (xs, r)) :
    l = (xs.map enc).flatten ++ r ∧ xs.length = k := by
  induction k generalizing l xs with
  | zero =>
    simp only [decodeRep, Option.some.injEq, Prod.mk.injEq] at h
    obtain ⟨hx, hr⟩ := h
    subst hx; subst hr
    simp
  | succ k ih =>
    simp only [decodeRep] at h
    cases he : dec l with
    | none => rw [he] at h; simp at h
    | some p =>
      rw [he] at h
      simp only [Option.some_bind] at h
      cases hrep : decodeRep dec k p.2 with
      | none => rw [hrep] at h; simp at h
      | some q =>
        rw [hrep] at h
        simp only [Option.map_some', Option.some.injEq, Prod.mk.injEq] at h
        obtain ⟨hx, hr⟩ := h
        subst hx; subst hr
        obtain ⟨hl2, hlen⟩ := ih p.2 q.1 hrep
        have hl1 := hdec l p.1 p.2 he
        constructor
        · rw [hl1, hl2]
          simp
        · simp [hlen]

theorem decodeRep_complete (dec : List Byte → Option (α × List Byte))
    (enc : α → List Byte) (P : α → Prop)
    (hdec : ∀ a r, P a → dec (enc a ++ r) = some (a, r))
    (xs : List α) (r : List Byte) (hP : ∀ a ∈ xs, P a) :
    decodeRep dec xs.length ((xs.map enc).flatten ++ r) = some (xs, r) := by
  induction xs with
  | nil => simp [decodeRep]
  | cons a xs ih =>
    have ha : P a := hP a (by simp)
    have hxs : ∀ b ∈ xs, P b := fun b hb => hP b (by simp [hb])
    simp only [List.map_cons, List.flatten_cons, List.length_cons, List.append_assoc]
    simp only [decodeRep, hdec a _ ha, Option.some_bind]
    rw [ih hxs]
    rfl

theorem decodeVec_sound (dec : List Byte → Option (α × List Byte))
    (enc : α → List Byte)
    (hdec : ∀ l a r, dec l = some (a, r) → l = enc a ++ r)
    (l : List Byte) (xs : List α) (r : List Byte)
    (h : decodeVec dec l = some (xs, r)) :
    l = encodeVec enc xs ++ r := by
  unfold decodeVec at h
  cases hv : decodeVarInt l with
  | none => rw [hv] at h; simp at h
  | some p =>
    rw [hv] at h
    simp only [Option.some_bind] at h
    obtain ⟨hl2, hlen⟩ := decodeRep_sound dec enc hdec p.1 p.2 xs r h
    have hl1 := decodeVarInt_sound l p.1 p.2 hv
    rw [hl1, hl2, ← hlen]
    simp [encodeVec]

theorem decodeVec_complete (dec : List Byte → Option (α × List Byte))
    (enc : α → List Byte) (P : α → Prop)
    (hdec : ∀ a r, P a → dec (enc a ++ r) = some (a, r))
    (xs : List α) (r : List Byte) (hP : ∀ a ∈ xs, P a)
    (hlen : xs.length < 2 ^ 64) :
    decodeVec dec (encodeVec enc xs ++ r) = some (xs, r) := by
  unfold decodeVec encodeVec
  rw [List.append_assoc, decodeVarInt_complete xs.length _ hlen]
  simp only [Option.some_bind]
  exact decodeRep_complete dec enc P hdec xs r hP

/-! ## Transactions and blocks

The data model of `rust-bitcoin`'s `Block`, `Transaction`, `TxIn`, `TxOut`
and block header, which the source decodes from and re-encodes to the
consensus byte format (`chain.rs`, `notification.rs`).  Integer fields carry
the bit pattern of the underlying machine integer as a `Nat`. -/

structure TxOut where
  value : Nat
  script_pubkey : List Byte
  deriving DecidableEq

structure TxIn where
  prev_txid : List Byte
  prev_vout : Nat
  script_sig : List Byte
  sequence : Nat
  witness : List (List Byte)
  deriving DecidableEq

structure Transaction where
  version : Nat
  input : List TxIn
  output : List TxOut
  lock_time : Nat
  deriving DecidableEq

structure Header where
  version : Nat
  prev_blockhash : List Byte
  merkle_root : List Byte
  time : Nat
  bits : Nat
  nonce : Nat
  deriving DecidableEq

structure Block where
  header : Header
  txdata : List Transaction
  deriving DecidableEq

def encodeTxOut (o : TxOut) : List Byte :=
  encodeLE 8 o.value ++ encodeVarBytes o.script_pubkey

def decodeTxOut (l : List Byte) : Option (TxOut × List Byte) :=
  (decodeLE 8 l).bind fun pv =>
    (decodeVarBytes pv.2).map fun ps => (⟨pv.1, ps.1⟩, ps.2)

/-- `TxIn` as consensus-encoded standalone (no witness data; `rust-bitcoin`
serializes witnesses separately in the segwit transaction format). -/
def encodeTxIn (i : TxIn) : List Byte :=
  i.prev_txid ++ encodeLE 4 i.prev_vout ++ encodeVarBytes i.script_sig ++
    encodeLE 4 i.sequence

/-- Standalone `TxIn` decoding: `rust-bitcoin` fills in an empty witness. -/
def decodeTxIn (l : List Byte) : Option (TxIn × List Byte) :=
  (readBytes 32 l).bind fun ph =>
    (decodeLE 4 ph.2).bind fun pv =>
      (decodeVarBytes pv.2).bind fun ps =>
        (decodeLE 4 ps.2).map fun pq => (⟨ph.1, pv.1, ps.1, pq.1, []⟩, pq.2)

def encodeWitness (w : List (List Byte)) : List Byte :=
  encodeVarInt w.length ++ (w.map encodeVarBytes).flatten

def decodeWitness (l : List Byte) : Option (List (List Byte) × List Byte) :=
  decodeVec decodeVarBytes l

/-- Replace a `TxIn`'s witness (the assignment loop of the segwit decode
path). -/
def setWitness (i : TxIn) (w : List (List Byte)) : TxIn := { i with witness := w }

/-- `rust-bitcoin`'s choice of transaction serialization format: segwit
(marker/flag) iff some input carries witness data, or there are no inputs
(to keep the empty-input encoding unambiguous). -/
def usesSegwit (t : Transaction) : Bool :=
  t.input.isEmpty || t.input.any fun i => !i.witness.isEmpty

/-- `Transaction::consensus_encode`. -/
def encodeTx (t : Transaction) : List Byte :=
  if usesSegwit t then
    encodeLE 4 t.version ++ [byteOfNat 0, byteOfNat 1] ++
      encodeVec encodeTxIn t.input ++ encodeVec encodeTxOut t.output ++
      (t.input.map fun i => encodeWitness i.witness).flatten ++
      encodeLE 4 t.lock_time
  else
    encodeLE 4 t.version ++ encodeVec encodeTxIn t.input ++
      encodeVec encodeTxOut t.output ++ encodeLE 4 t.lock_time

/-- `Transaction::consensus_decode`: read the version and an input vector;
an empty input vector switches to the segwit marker/flag path, which
re-reads inputs, reads outputs, attaches one witness per input and rejects
a witness-flagged transaction whose inputs all ended up with empty
witnesses. -/
def decodeTx (l : List Byte) : Option (Transaction × List Byte) :=
  (decodeLE 4 l).bind fun pv =>
    (decodeVec decodeTxIn pv.2).bind fun pi =>
      if pi.1.isEmpty then
        (decodeLE 1 pi.2).bind fun pf =>
          if pf.1 = 1 then
            (decodeVec decodeTxIn pf.2).bind fun pi2 =>
              (decodeVec decodeTxOut pi2.2).bind fun po =>
                (decodeRep decodeWitness pi2.1.length po.2).bind fun pw =>
                  let inputs := List.zipWith setWitness pi2.1 pw.1
                  if !inputs.isEmpty ∧ inputs.all (fun i => i.witness.isEmpty) then
                    none
                  else
                    (decodeLE 4 pw.2).map fun pl =>
                      (⟨pv.1, inputs, po.1, pl.1⟩, pl.2)
          else none
      else
        (decodeVec decodeTxOut pi.2).bind fun po =>
          (decodeLE 4 po.2).map fun pl => (⟨pv.1, pi.1, po.1, pl.1⟩, pl.2)

def encodeHeader (h : Header) : List Byte :=
  encodeLE 4 h.version ++ h.prev_blockhash ++ h.merkle_root ++
    encodeLE 4 h.time ++ encodeLE 4 h.bits ++ encodeLE 4 h.nonce

def decodeHeader (l : List Byte) : Option (Header × List Byte) :=
  (decodeLE 4 l).bind fun pv =>
    (readBytes 32 pv.2).bind fun pp =>
      (readBytes 32 pp.2).bind fun pm =>
        (decodeLE 4 pm.2).bind fun pt =>
          (decodeLE 4 pt.2).bind fun pb =>
            (decodeLE 4 pb.2).map fun pn =>
              (⟨pv.1, pp.1, pm.1, pt.1, pb.1, pn.1⟩, pn.2)

/-- `Block::consensus_encode`: header then transaction vector. -/
def encodeBlock (b : Block) : List Byte :=
  encodeHeader b.header ++ encodeVec encodeTx b.txdata

/-- `Block::consensus_decode`: header then transaction vector, returning the
unconsumed tail (the library's reader-based decode tolerates trailing
bytes). -/
def decodeBlock (l : List Byte) : Option (Block × List Byte) :=
  (decodeHeader l).bind fun ph =>
    (decodeVec decodeTx ph.2).map fun pt => (⟨ph.1, pt.1⟩, pt.2)

/-- `bitcoin::consensus::deserialize`: a strict decode that rejects
unconsumed trailing bytes (used by `get_block_by_hash`). -/
def deserializeBlock (l : List Byte) : Option Block :=
  match decodeBlock l with
  | some (b, []) => some b
  | _ => none

/-! ## Round-trip lemmas for the transaction codec -/

theorem decodeTxOut_sound (l : List Byte) (o : TxOut) (r : List Byte)
    (h : decodeTxOut l = some (o, r)) : l = encodeTxOut o ++ r := by
  unfold decodeTxOut at h
  cases hv : decodeLE 8 l with
  | none => rw [hv] at h; simp at h
  | some pv =>
    rw [hv] at h
    simp only [Option.some_bind] at h
    cases hs : decodeVarBytes pv.2 with
    | none => rw [hs] at h; simp at h
    | some ps =>
      rw [hs] at h
      simp only [Option.map_some', Option.some.injEq] at h
      obtain ⟨rfl, rfl⟩ : o = ⟨pv.1, ps.1⟩ ∧ r = ps.2 := by
        constructor
        · exact (congrArg Prod.fst h).symm
        · exact (congrArg Prod.snd h).symm
      obtain ⟨hl, _⟩ := decodeLE_sound 8 l pv.1 pv.2 hv
      have hl2 := decodeVarBytes_sound pv.2 ps.1 ps.2 hs
      rw [hl, hl2]
      simp [encodeTxOut]

def WFTxOut (o : TxOut) : Prop :=
  o.value < 2 ^ 64 ∧ o.script_pubkey.length < 2 ^ 64

theorem decodeTxOut_complete (o : TxOut) (r : List Byte) (hwf : WFTxOut o) :
    decodeTxOut (encodeTxOut o ++ r) = some (o, r) := by
  obtain ⟨h1, h2⟩ := hwf
  unfold encodeTxOut decodeTxOut
  rw [List.append_assoc, decodeLE_complete 8 o.value _ (by norm_num at h1 ⊢; omega)]
  simp only [Option.some_bind]
  rw [decodeVarBytes_complete o.script_pubkey r h2]
  rfl

theorem decodeTxIn_sound (l : List Byte) (i : TxIn) (r : List Byte)
    (h : decodeTxIn l = some (i, r)) :
    l = encodeTxIn i ++ r ∧ i.witness = [] := by
  unfold decodeTxIn at h
  cases hh : readBytes 32 l with
  | none => rw [hh] at h; simp at h
  | some ph =>
    rw [hh] at h
    simp only [Option.some_bind] at h
    cases hv : decodeLE 4 ph.2 with
    | none => rw [hv] at h; simp at h
    | some pv =>
      rw [hv] at h
      simp only [Option.some_bind] at h
      cases hs : decodeVarBytes pv.2 with
      | none => rw [hs] at h; simp at h
      | some ps =>
        rw [hs] at h
        simp only [Option.some_bind] at h
        cases hq : decodeLE 4 ps.2 with
        | none => rw [hq] at h; simp at h
        | some pq =>
          rw [hq] at h
          simp only [Option.map_some', Option.some.injEq] at h
          obtain ⟨rfl, rfl⟩ : i = ⟨ph.1, pv.1, ps.1, pq.1, []⟩ ∧ r = pq.2 := by
            constructor
            · exact (congrArg Prod.fst h).symm
            · exact (congrArg Prod.snd h).symm
          obtain ⟨hl1, _⟩ := readBytes_sound 32 l ph.1 ph.2 hh
          obtain ⟨hl2, _⟩ := decodeLE_sound 4 ph.2 pv.1 pv.2 hv
          have hl3 := decodeVarBytes_sound pv.2 ps.1 ps.2 hs
          obtain ⟨hl4, _⟩ := decodeLE_sound 4 ps.2 pq.1 pq.2 hq
          refine ⟨?_, rfl⟩
          rw [hl1, hl2, hl3, hl4]
          simp [encodeTxIn]

def WFTxIn (i : TxIn) : Prop :=
  i.prev_txid.length = 32 ∧ i.prev_vout < 2 ^ 32 ∧
    i.script_sig.length < 2 ^ 64 ∧ i.sequence < 2 ^ 32 ∧
    i.witness.length < 2 ^ 64 ∧ ∀ e ∈ i.witness, e.length < 2 ^ 64

theorem decodeTxIn_complete (i : TxIn) (r : List Byte) (hwf : WFTxIn i) :
    decodeTxIn (encodeTxIn i ++ r) = some (setWitness i [], r) := by
  obtain ⟨h1, h2, h3, h4, _, _⟩ := hwf
  unfold encodeTxIn decodeTxIn
  rw [List.append_assoc, List.append_assoc, List.append_assoc]
  rw [show readBytes 32 (i.prev_txid ++ (encodeLE 4 i.prev_vout ++
      (encodeVarBytes i.script_sig ++ (encodeLE 4 i.sequence ++ r)))) =
    some (i.prev_txid, encodeLE 4 i.prev_vout ++
      (encodeVarBytes i.script_sig ++ (encodeLE 4 i.sequence ++ r))) from
    h1 ▸ readBytes_complete i.prev_txid _]
  simp only [Option.some_bind]
  rw [decodeLE_complete 4 i.prev_vout _ (by norm_num at h2 ⊢; omega)]
  simp only [Option.some_bind]
  rw [decodeVarBytes_complete i.script_sig _ h3]
  simp only [Option.some_bind]
  rw [decodeLE_complete 4 i.sequence _ (by norm_num at h4 ⊢; omega)]
  rfl

theorem decodeWitness_sound (l : List Byte) (w : List (List Byte)) (r : List Byte)
    (h : decodeWitness l = some (w, r)) : l = encodeWitness w ++ r :=
  decodeVec_sound decodeVarBytes encodeVarBytes decodeVarBytes_sound l w r h

def WFWitness (w : List (List Byte)) : Prop :=
  w.length < 2 ^ 64 ∧ ∀ e ∈ w, e.length < 2 ^ 64

theorem decodeWitness_complete (w : List (List Byte)) (r : List Byte)
    (hwf : WFWitness w) : decodeWitness (encodeWitness w ++ r) = some (w, r) :=
  decodeVec_complete decodeVarBytes encodeVarBytes (fun e => e.length < 2 ^ 64)
    (fun e rr he => decodeVarBytes_complete e rr he) w r hwf.2 hwf.1

/-! Helper lemmas about witness reattachment in the segwit decode path. -/

theorem encodeTxIn_setWitness (i : TxIn) (w : List (List Byte)) :
    encodeTxIn (setWitness i w) = encodeTxIn i := rfl

theorem zipWith_setWitness_map_encodeTxIn (xs : List TxIn)
    (ws : List (List (List Byte))) (h : ws.length = xs.length) :
    (List.zipWith setWitness xs ws).map encodeTxIn = xs.map encodeTxIn := by
  induction xs generalizing ws with
  | nil => simp
  | cons x xs ih =>
    cases ws with
    | nil => simp at h
    | cons w ws =>
      simp only [List.zipWith_cons_cons, List.map_cons, encodeTxIn_setWitness]
      rw [ih ws (by simpa using h)]

theorem zipWith_setWitness_length (xs : List TxIn) (ws : List (List (List Byte)))
    (h : ws.length = xs.length) :
    (List.zipWith setWitness xs ws).length = xs.length := by
  simp [List.length_zipWith, h]

theorem zipWith_setWitness_witness (xs : List TxIn) (ws : List (List (List Byte)))
    (h : ws.length = xs.length) :
    (List.zipWith setWitness xs ws).map (fun i => i.witness) = ws := by
  induction xs generalizing ws with
  | nil => cases ws with
    | nil => simp
    | cons w ws => simp at h
  | cons x xs ih =>
    cases ws with
    | nil => simp at h
    | cons w ws =>
      simp only [List.zipWith_cons_cons, List.map_cons, setWitness]
      rw [ih ws (by simpa using h)]

theorem map_setWitness_nil (xs : List TxIn) (h : ∀ i ∈ xs, i.witness = []) :
    xs.map (fun i => setWitness i []) = xs := by
  induction xs with
  | nil => rfl
  | cons x xs ih =>
    have hx : x.witness = [] := h x (by simp)
    have hxs : ∀ i ∈ xs, i.witness = [] := fun i hi => h i (by simp [hi])
    simp only [List.map_cons, ih hxs, List.cons.injEq]
    exact ⟨by cases x with | mk a b c d e => simpa [setWitness] using hx.symm, trivial⟩

theorem zipWith_setWitness_strip (xs : List TxIn) :
    List.zipWith setWitness (xs.map fun i => setWitness i [])
      (xs.map fun i => i.witness) = xs := by
  induction xs with
  | nil => rfl
  | cons x xs ih =>
    simp only [List.map_cons, List.zipWith_cons_cons, ih, List.cons.injEq]
    exact ⟨by cases x with | mk a b c d e => rfl, trivial⟩

/-- Every element accepted by a repeated decode satisfies any property that
single-element decodes guarantee. -/
theorem decodeRep_mem (dec : List Byte → Option (α × List Byte)) (Q : α → Prop)
    (hdec : ∀ l a r, dec l = some (a, r) → Q a)
    (k : Nat) (l : List Byte) (xs : List α) (r : List Byte)
    (h : decodeRep dec k l = some (xs, r)) : ∀ a ∈ xs, Q a := by
  induction k generalizing l xs with
  | zero =>
    simp only [decodeRep, Option.some.injEq, Prod.mk.injEq] at h
    obtain ⟨hx, _⟩ := h
    subst hx
    simp
  | succ k ih =>
    simp only [decodeRep] at h
    cases he : dec l with
    | none => rw [he] at h; simp at h
    | some p =>
      rw [he] at h
      simp only [Option.some_bind] at h
      cases hrep : decodeRep dec k p.2 with
      | none => rw [hrep] at h; simp at h
      | some q =>
        rw [hrep] at h
        simp only [Option.map_some', Option.some.injEq, Prod.mk.injEq] at h
        obtain ⟨hx, hr⟩ := h
        subst hx
        have hrep' : decodeRep dec k p.2 = some (q.1, r) := by rw [hrep, ← hr]
        intro a ha
        rcases List.mem_cons.mp ha with ha | ha
        · exact ha ▸ hdec l p.1 p.2 he
        · exact ih p.2 q.1 hrep' a ha

theorem decodeVec_mem (dec : List Byte → Option (α × List Byte)) (Q : α → Prop)
    (hdec : ∀ l a r, dec l = some (a, r) → Q a)
    (l : List Byte) (xs : List α) (r : List Byte)
    (h : decodeVec dec l = some (xs, r)) : ∀ a ∈ xs, Q a := by
  unfold decodeVec at h
  cases hv : decodeVarInt l with
  | none => rw [hv] at h; simp at h
  | some p =>
    rw [hv] at h
    simp only [Option.some_bind] at h
    exact decodeRep_mem dec Q hdec p.1 p.2 xs r h

/-- A variant of repeated-decode completeness where the element decoder
returns a transformed copy of the encoded element (the witness-stripping
standalone `TxIn` decode). -/
theorem decodeRep_complete_map (dec : List Byte → Option (α × List Byte))
    (enc : α → List Byte) (f : α → α) (P : α → Prop)
    (hdec : ∀ a r, P a → dec (enc a ++ r) = some (f a, r))
    (xs : List α) (r : List Byte) (hP : ∀ a ∈ xs, P a) :
    decodeRep dec xs.length ((xs.map enc).flatten ++ r) = some (xs.map f, r) := by
  induction xs with
  | nil => simp [decodeRep]
  | cons a xs ih =>
    have ha : P a := hP a (by simp)
    have hxs : ∀ b ∈ xs, P b := fun b hb => hP b (by simp [hb])
    simp only [List.map_cons, List.flatten_cons, List.length_cons, List.append_assoc]
    simp only [decodeRep, hdec a _ ha, Option.some_bind]
    rw [ih hxs]
    rfl

theorem decodeVec_complete_map (dec : List Byte → Option (α × List Byte))
    (enc : α → List Byte) (f : α → α) (P : α → Prop)
    (hdec : ∀ a r, P a → dec (enc a ++ r) = some (f a, r))
    (xs : List α) (r : List Byte) (hP : ∀ a ∈ xs, P a)
    (hlen : xs.length < 2 ^ 64) :
    decodeVec dec (encodeVec enc xs ++ r) = some (xs.map f, r) := by
  unfold decodeVec encodeVec
  rw [List.append_assoc, decodeVarInt_complete xs.length _ hlen]
  simp only [Option.some_bind]
  exact decodeRep_complete_map dec enc f P hdec xs r hP

/-- Witness-specific instantiation of repeated-decode soundness. -/
theorem decodeRepWitness_sound (k : Nat) (l : List Byte)
    (ws : List (List (List Byte))) (r : List Byte)
    (h : decodeRep decodeWitness k l = some (ws, r)) :
    l = (ws.map encodeWitness).flatten ++ r ∧ ws.length = k :=
  decodeRep_sound decodeWitness encodeWitness decodeWitness_sound k l ws r h

/-- Soundness of the transaction decoder: an accepted byte string is exactly
the re-encoding of the decoded transaction followed by the unconsumed
tail.  This is the canonicality half of the consensus round-trip. -/
theorem decodeTx_sound (l : List Byte) (t : Transaction) (r : List Byte)
    (h : decodeTx l = some (t, r)) : l = encodeTx t ++ r := by
  unfold decodeTx at h
  cases hv : decodeLE 4 l with
  | none => rw [hv] at h; simp at h
  | some pv =>
  rw [hv] at h
  simp only [Option.some_bind] at h
  obtain ⟨hlv, _⟩ := decodeLE_sound 4 l pv.1 pv.2 hv
  cases hi : decodeVec decodeTxIn pv.2 with
  | none => rw [hi] at h; simp at h
  | some pi =>
  rw [hi] at h
  simp only [Option.some_bind] at h
  have hli := decodeVec_sound decodeTxIn encodeTxIn
    (fun l a r hh => (decodeTxIn_sound l a r hh).1) pv.2 pi.1 pi.2 hi
  have hmemi : ∀ i ∈ pi.1, i.witness = [] :=
    decodeVec_mem decodeTxIn (fun i => i.witness = [])
      (fun l a r hh => (decodeTxIn_sound l a r hh).2) pv.2 pi.1 pi.2 hi
  by_cases hemp : pi.1.isEmpty
  · rw [if_pos hemp] at h
    have hinil : pi.1 = [] := List.isEmpty_iff.mp hemp
    cases hf : decodeLE 1 pi.2 with
    | none => rw [hf] at h; simp at h
    | some pf =>
    rw [hf] at h
    simp only [Option.some_bind] at h
    obtain ⟨hlf, _⟩ := decodeLE_sound 1 pi.2 pf.1 pf.2 hf
    by_cases hflag : pf.1 = 1
    · rw [if_pos hflag] at h
      cases hi2 : decodeVec decodeTxIn pf.2 with
      | none => rw [hi2] at h; simp at h
      | some pi2 =>
      rw [hi2] at h
      simp only [Option.some_bind] at h
      have hli2 := decodeVec_sound decodeTxIn encodeTxIn
        (fun l a r hh => (decodeTxIn_sound l a r hh).1) pf.2 pi2.1 pi2.2 hi2
      cases ho : decodeVec decodeTxOut pi2.2 with
      | none => rw [ho] at h; simp at h
      | some po =>
      rw [ho] at h
      simp only [Option.some_bind] at h
      have hlo := decodeVec_sound decodeTxOut encodeTxOut decodeTxOut_sound
        pi2.2 po.1 po.2 ho
      cases hw : decodeRep decodeWitness pi2.1.length po.2 with
      | none => rw [hw] at h; simp at h
      | some pw =>
      rw [hw] at h
      simp only [Option.some_bind] at h
      obtain ⟨hlw, hwlen⟩ := decodeRepWitness_sound pi2.1.length po.2 pw.1 pw.2 hw
      by_cases hguard : (!(List.zipWith setWitness pi2.1 pw.1).isEmpty) = true ∧
          ((List.zipWith setWitness pi2.1 pw.1).all fun i => i.witness.isEmpty) = true
      · rw [if_pos hguard] at h; simp at h
      · rw [if_neg hguard] at h
        cases hl4 : decodeLE 4 pw.2 with
        | none => rw [hl4] at h; simp at h
        | some pl =>
        rw [hl4] at h
        simp only [Option.map_some', Option.some.injEq, Prod.mk.injEq] at h
        obtain ⟨ht, hr⟩ := h
        obtain ⟨hll, _⟩ := decodeLE_sound 4 pw.2 pl.1 pl.2 hl4
        subst ht; subst hr
        have hseg : usesSegwit ⟨pv.1, List.zipWith setWitness pi2.1 pw.1, po.1, pl.1⟩
            = true := by
          unfold usesSegwit
          by_cases hz : (List.zipWith setWitness pi2.1 pw.1).isEmpty
          · simp [hz]
          · have hall : ¬ ((List.zipWith setWitness pi2.1 pw.1).all
                fun i => i.witness.isEmpty) = true := by
              intro hcon
              exact hguard ⟨by simp [hz], hcon⟩
            simp only [List.all_eq_true, not_forall] at hall
            obtain ⟨i, hi1, hi2⟩ := hall
            simp only [Bool.or_eq_true, List.any_eq_true]
            exact Or.inr ⟨i, hi1, by simpa using hi2⟩
        rw [encodeTx, if_pos hseg]
        have henc1 : encodeVec encodeTxIn (List.zipWith setWitness pi2.1 pw.1) =
            encodeVec encodeTxIn pi2.1 := by
          unfold encodeVec
          rw [zipWith_setWitness_length pi2.1 pw.1 hwlen,
            zipWith_setWitness_map_encodeTxIn pi2.1 pw.1 hwlen]
        have henc2 : ((List.zipWith setWitness pi2.1 pw.1).map
            (fun i => encodeWitness i.witness)).flatten =
            (pw.1.map encodeWitness).flatten := by
          rw [show ((List.zipWith setWitness pi2.1 pw.1).map
              (fun i => encodeWitness i.witness)) =
              ((List.zipWith setWitness pi2.1 pw.1).map (fun i => i.witness)).map
                encodeWitness from by rw [List.map_map]; rfl,
            zipWith_setWitness_witness pi2.1 pw.1 hwlen]
        have hvec0 : encodeVec encodeTxIn ([] : List TxIn) = [byteOfNat 0] := by
          simp [encodeVec, encodeVarInt]
        have hle1 : encodeLE 1 pf.1 = [byteOfNat 1] := by
          rw [hflag]; rfl
        rw [hlv, hli, hinil, hvec0, hlf, hle1, hli2, hlo, hlw, hll]
        simp [henc1, henc2]
    · rw [if_neg hflag] at h; simp at h
  · rw [if_neg hemp] at h
    cases ho : decodeVec decodeTxOut pi.2 with
    | none => rw [ho] at h; simp at h
    | some po =>
    rw [ho] at h
    simp only [Option.some_bind] at h
    have hlo := decodeVec_sound decodeTxOut encodeTxOut decodeTxOut_sound
      pi.2 po.1 po.2 ho
    cases hl4 : decodeLE 4 po.2 with
    | none => rw [hl4] at h; simp at h
    | some pl =>
    rw [hl4] at h
    simp only [Option.map_some', Option.some.injEq, Prod.mk.injEq] at h
    obtain ⟨ht, hr⟩ := h
    obtain ⟨hll, _⟩ := decodeLE_sound 4 po.2 pl.1 pl.2 hl4
    subst ht; subst hr
    have hseg : usesSegwit ⟨pv.1, pi.1, po.1, pl.1⟩ = false := by
      unfold usesSegwit
      simp only [Bool.or_eq_false_iff]
      refine ⟨by simpa using hemp, ?_⟩
      simp only [List.any_eq_false]
      intro i hi
      simp [hmemi i hi]
    rw [encodeTx, if_neg (by simp [hseg])]
    rw [hlv, hli, hlo, hll]
    simp

def WFTx (t : Transaction) : Prop :=
  t.version < 2 ^ 32 ∧ t.lock_time < 2 ^ 32 ∧
    t.input.length < 2 ^ 64 ∧ t.output.length < 2 ^ 64 ∧
    (∀ i ∈ t.input, WFTxIn i) ∧ ∀ o ∈ t.output, WFTxOut o

/-- Completeness of the transaction decoder on well-formed transactions:
the consensus encoding decodes back to the same transaction. -/
theorem decodeTx_complete (t : Transaction) (r : List Byte) (hwf : WFTx t) :
    decodeTx (encodeTx t ++ r) = some (t, r) := by
  obtain ⟨hver, hlock, hilen, holen, hiwf, howf⟩ := hwf
  by_cases hseg : usesSegwit t = true
  · rw [encodeTx, if_pos hseg]
    unfold decodeTx
    rw [show encodeLE 4 t.version ++ [byteOfNat 0, byteOfNat 1] ++
        encodeVec encodeTxIn t.input ++ encodeVec encodeTxOut t.output ++
        (t.input.map fun i => encodeWitness i.witness).flatten ++
        encodeLE 4 t.lock_time ++ r =
      encodeLE 4 t.version ++ ([byteOfNat 0, byteOfNat 1] ++
        (encodeVec encodeTxIn t.input ++ (encodeVec encodeTxOut t.output ++
        ((t.input.map fun i => encodeWitness i.witness).flatten ++
        (encodeLE 4 t.lock_time ++ r))))) from by simp [List.append_assoc]]
    rw [decodeLE_complete 4 t.version _ (by norm_num at hver ⊢; omega)]
    simp only [Option.some_bind]
    rw [show ([byteOfNat 0, byteOfNat 1] : List Byte) ++
        (encodeVec encodeTxIn t.input ++ (encodeVec encodeTxOut t.output ++
        ((t.input.map fun i => encodeWitness i.witness).flatten ++
        (encodeLE 4 t.lock_time ++ r)))) =
      encodeVec encodeTxIn ([] : List TxIn) ++ ([byteOfNat 1] ++
        (encodeVec encodeTxIn t.input ++ (encodeVec encodeTxOut t.output ++
        ((t.input.map fun i => encodeWitness i.witness).flatten ++
        (encodeLE 4 t.lock_time ++ r))))) from by
      simp [encodeVec, encodeVarInt]]
    rw [decodeVec_complete decodeTxIn encodeTxIn (fun _ => False)
      (fun a rr hfalse => hfalse.elim) [] _ (by simp) (by norm_num)]
    simp only [Option.some_bind, List.isEmpty_nil, if_pos]
    rw [show ([byteOfNat 1] : List Byte) = encodeLE 1 1 from rfl]
    rw [decodeLE_complete 1 1 _ (by norm_num)]
    simp only [Option.some_bind, if_pos rfl]
    rw [decodeVec_complete_map decodeTxIn encodeTxIn (fun i => setWitness i [])
      WFTxIn (fun a rr ha => decodeTxIn_complete a rr ha) t.input _ hiwf hilen]
    simp only [Option.some_bind]
    rw [decodeVec_complete decodeTxOut encodeTxOut WFTxOut
      (fun a rr ha => decodeTxOut_complete a rr ha) t.output _ howf holen]
    simp only [Option.some_bind]
    have hcount : (t.input.map fun i => setWitness i []).length = t.input.length := by
      simp
    rw [hcount]
    rw [show (t.input.map fun i => encodeWitness i.witness).flatten =
        ((t.input.map fun i => i.witness).map encodeWitness).flatten from by
      rw [List.map_map]; rfl]
    rw [show t.input.length = (t.input.map fun i => i.witness).length from by simp]
    rw [decodeRep_complete decodeWitness encodeWitness WFWitness
      (fun w rr hw => decodeWitness_complete w rr hw)
      (t.input.map fun i => i.witness) _
      (by
        intro w hw
        obtain ⟨i, hi, rfl⟩ := List.mem_map.mp hw
        obtain ⟨_, _, _, _, hw1, hw2⟩ := hiwf i hi
        exact ⟨hw1, hw2⟩)]
    simp only [Option.some_bind]
    rw [zipWith_setWitness_strip t.input]
    have hguard : ¬((!t.input.isEmpty) = true ∧
        (t.input.all fun i => i.witness.isEmpty) = true) := by
      rintro ⟨hne, hall⟩
      unfold usesSegwit at hseg
      rcases Bool.or_eq_true_iff.mp hseg with hih | hany
      · simp [hih] at hne
      · obtain ⟨i, hi, hwit⟩ := List.any_eq_true.mp hany
        have := List.all_eq_true.mp hall i hi
        simp [this] at hwit
    rw [if_neg hguard]
    rw [decodeLE_complete 4 t.lock_time _ (by norm_num at hlock ⊢; omega)]
    rfl
  · rw [encodeTx, if_neg hseg]
    have hne : ¬ t.input.isEmpty := by
      intro hcon
      exact hseg (by simp [usesSegwit, hcon])
    have hwitnil : ∀ i ∈ t.input, i.witness = [] := by
      intro i hi
      by_contra hcon
      exact hseg (by
        simp only [usesSegwit, Bool.or_eq_true, List.any_eq_true]
        exact Or.inr ⟨i, hi, by simpa using hcon⟩)
    unfold decodeTx
    rw [show encodeLE 4 t.version ++ encodeVec encodeTxIn t.input ++
        encodeVec encodeTxOut t.output ++ encodeLE 4 t.lock_time ++ r =
      encodeLE 4 t.version ++ (encodeVec encodeTxIn t.input ++
        (encodeVec encodeTxOut t.output ++ (encodeLE 4 t.lock_time ++ r)))
      from by simp [List.append_assoc]]
    rw [decodeLE_complete 4 t.version _ (by norm_num at hver ⊢; omega)]
    simp only [Option.some_bind]
    rw [decodeVec_complete_map decodeTxIn encodeTxIn (fun i => setWitness i [])
      WFTxIn (fun a rr ha => decodeTxIn_complete a rr ha) t.input _ hiwf hilen]
    simp only [Option.some_bind]
    rw [map_setWitness_nil t.input hwitnil]
    rw [if_neg (by simpa using hne)]
    rw [decodeVec_complete decodeTxOut encodeTxOut WFTxOut
      (fun a rr ha => decodeTxOut_complete a rr ha) t.output _ howf holen]
    simp only [Option.some_bind]
    rw [decodeLE_complete 4 t.lock_time _ (by norm_num at hlock ⊢; omega)]
    rfl

def WFHeader (h : Header) : Prop :=
  h.version < 2 ^ 32 ∧ h.prev_blockhash.length = 32 ∧ h.merkle_root.length = 32 ∧
    h.time < 2 ^ 32 ∧ h.bits < 2 ^ 32 ∧ h.nonce < 2 ^ 32

def WFBlock (b : Block) : Prop :=
  WFHeader b.header ∧ b.txdata.length < 2 ^ 64 ∧ ∀ t ∈ b.txdata, WFTx t

theorem decodeHeader_sound (l : List Byte) (hd : Header) (r : List Byte)
    (h : decodeHeader l = some (hd, r)) : l = encodeHeader hd ++ r := by
  unfold decodeHeader at h
  cases hv : decodeLE 4 l with
  | none => rw [hv] at h; simp at h
  | some pv =>
  rw [hv] at h
  simp only [Option.some_bind] at h
  cases hp : readBytes 32 pv.2 with
  | none => rw [hp] at h; simp at h
  | some pp =>
  rw [hp] at h
  simp only [Option.some_bind] at h
  cases hm : readBytes 32 pp.2 with
  | none => rw [hm] at h; simp at h
  | some pm =>
  rw [hm] at h
  simp only [Option.some_bind] at h
  cases ht : decodeLE 4 pm.2 with
  | none => rw [ht] at h; simp at h
  | some pt =>
  rw [ht] at h
  simp only [Option.some_bind] at h
  cases hb : decodeLE 4 pt.2 with
  | none => rw [hb] at h; simp at h
  | some pb =>
  rw [hb] at h
  simp only [Option.some_bind] at h
  cases hn : decodeLE 4 pb.2 with
  | none => rw [hn] at h; simp at h
  | some pn =>
  rw [hn] at h
  simp only [Option.map_some', Option.some.injEq] at h
  obtain ⟨rfl, rfl⟩ : hd = ⟨pv.1, pp.1, pm.1, pt.1, pb.1, pn.1⟩ ∧ r = pn.2 := by
    constructor
    · exact (congrArg Prod.fst h).symm
    · exact (congrArg Prod.snd h).symm
  obtain ⟨hl1, _⟩ := decodeLE_sound 4 l pv.1 pv.2 hv
  obtain ⟨hl2, _⟩ := readBytes_sound 32 pv.2 pp.1 pp.2 hp
  obtain ⟨hl3, _⟩ := readBytes_sound 32 pp.2 pm.1 pm.2 hm
  obtain ⟨hl4, _⟩ := decodeLE_sound 4 pm.2 pt.1 pt.2 ht
  obtain ⟨hl5, _⟩ := decodeLE_sound 4 pt.2 pb.1 pb.2 hb
  obtain ⟨hl6, _⟩ := decodeLE_sound 4 pb.2 pn.1 pn.2 hn
  rw [hl1, hl2, hl3, hl4, hl5, hl6]
  simp [encodeHeader]

theorem decodeHeader_complete (hd : Header) (r : List Byte) (hwf : WFHeader hd) :
    decodeHeader (encodeHeader hd ++ r) = some (hd, r) := by
  obtain ⟨h1, h2, h3, h4, h5, h6⟩ := hwf
  unfold encodeHeader decodeHeader
  rw [show encodeLE 4 hd.version ++ hd.prev_blockhash ++ hd.merkle_root ++
      encodeLE 4 hd.time ++ encodeLE 4 hd.bits ++ encodeLE 4 hd.nonce ++ r =
    encodeLE 4 hd.version ++ (hd.prev_blockhash ++ (hd.merkle_root ++
      (encodeLE 4 hd.time ++ (encodeLE 4 hd.bits ++ (encodeLE 4 hd.nonce ++ r)))))
    from by simp [List.append_assoc]]
  rw [decodeLE_complete 4 hd.version _ (by norm_num at h1 ⊢; omega)]
  simp only [Option.some_bind]
  rw [show readBytes 32 (hd.prev_blockhash ++ (hd.merkle_root ++
      (encodeLE 4 hd.time ++ (encodeLE 4 hd.bits ++ (encodeLE 4 hd.nonce ++ r))))) =
    some (hd.prev_blockhash, hd.merkle_root ++
      (encodeLE 4 hd.time ++ (encodeLE 4 hd.bits ++ (encodeLE 4 hd.nonce ++ r))))
    from h2 ▸ readBytes_complete hd.prev_blockhash _]
  simp only [Option.some_bind]
  rw [show readBytes 32 (hd.merkle_root ++
      (encodeLE 4 hd.time ++ (encodeLE 4 hd.bits ++ (encodeLE 4 hd.nonce ++ r)))) =
    some (hd.merkle_root,
      encodeLE 4 hd.time ++ (encodeLE 4 hd.bits ++ (encodeLE 4 hd.nonce ++ r)))
    from h3 ▸ readBytes_complete hd.merkle_root _]
  simp only [Option.some_bind]
  rw [decodeLE_complete 4 hd.time _ (by norm_num at h4 ⊢; omega)]
  simp only [Option.some_bind]
  rw [decodeLE_complete 4 hd.bits _ (by norm_num at h5 ⊢; omega)]
  simp only [Option.some_bind]
  rw [decodeLE_complete 4 hd.nonce _ (by norm_num at h6 ⊢; omega)]
  rfl

/-- Soundness of the block decoder (canonicality): whatever the decoder
accepts re-encodes to exactly the consumed prefix. -/
theorem decodeBlock_sound (l : List Byte) (b : Block) (r : List Byte)
    (h : decodeBlock l = some (b, r)) : l = encodeBlock b ++ r := by
  unfold decodeBlock at h
  cases hh : decodeHeader l with
  | none => rw [hh] at h; simp at h
  | some ph =>
  rw [hh] at h
  simp only [Option.some_bind] at h
  cases ht : decodeVec decodeTx ph.2 with
  | none => rw [ht] at h; simp at h
  | some pt =>
  rw [ht] at h
  simp only [Option.map_some', Option.some.injEq] at h
  obtain ⟨rfl, rfl⟩ : b = ⟨ph.1, pt.1⟩ ∧ r = pt.2 := by
    constructor
    · exact (congrArg Prod.fst h).symm
    · exact (congrArg Prod.snd h).symm
  have hl1 := decodeHeader_sound l ph.1 ph.2 hh
  have hl2 := decodeVec_sound decodeTx encodeTx decodeTx_sound ph.2 pt.1 pt.2 ht
  rw [hl1, hl2]
  simp [encodeBlock]

/-- Completeness of the block decoder on well-formed blocks. -/
theorem decodeBlock_complete (b : Block) (r : List Byte) (hwf : WFBlock b) :
    decodeBlock (encodeBlock b ++ r) = some (b, r) := by
  obtain ⟨hh, hlen, htx⟩ := hwf
  unfold encodeBlock decodeBlock
  rw [List.append_assoc, decodeHeader_complete b.header _ hh]
  simp only [Option.some_bind]
  rw [decodeVec_complete decodeTx encodeTx WFTx
    (fun a rr ha => decodeTx_complete a rr ha) b.txdata r htx hlen]
  rfl

/-- The strict deserializer accepts exactly the full valid encodings. -/
theorem deserializeBlock_complete (b : Block) (hwf : WFBlock b) :
    deserializeBlock (encodeBlock b) = some b := by
  unfold deserializeBlock
  rw [show encodeBlock b = encodeBlock b ++ [] from by simp,
    decodeBlock_complete b [] hwf]

theorem deserializeBlock_sound (l : List Byte) (b : Block)
    (h : deserializeBlock l = some b) : l = encodeBlock b := by
  unfold deserializeBlock at h
  cases hd : decodeBlock l with
  | none => rw [hd] at h; simp at h
  | some p =>
    rw [hd] at h
    obtain ⟨bb, rest⟩ := p
    cases rest with
    | nil =>
      simp only [Option.some.injEq] at h
      subst h
      simpa using decodeBlock_sound l bb [] hd
    | cons x xs => simp at h

/-! ## Notification service (`blocktalk/src/notification.rs`)

`ChainNotificationHandler` holds an ordered list of registered handlers.  A
handler is modelled by its registration identity and its response to an
event (`Ok` = `true`); `dispatch_notification` additionally returns the
invocation trace (which handler was called with which event, in call order)
as the observable against which the fan-out claims are stated. -/

inductive ChainNotification
  | BlockConnected (b : Block)
  | BlockDisconnected (hash : List Byte)
  | TransactionAddedToMempool (t : Transaction)
  | TransactionRemovedFromMempool (txid : List Byte)
  | UpdatedBlockTip (hash : List Byte)
  | ChainStateFlushed
  deriving DecidableEq

structure Handler where
  id : Nat
  respond : ChainNotification → Bool

/-- `ChainNotificationHandler::dispatch_notification`: clone the registered
list, then invoke each handler in order with `?`-propagation — the loop body
is `handler.handle_notification(notification.clone()).await?`, so a failing
handler ends the loop.  Returns (success, invocation trace). -/
def dispatch_notification (handlers : List Handler) (n : ChainNotification) :
    Bool × List (Nat × ChainNotification) :=
  match handlers with
  | [] => (true, [])
  | h :: rest =>
    if h.respond n then
      let d := dispatch_notification rest n
      (d.1, (h.id, n) :: d.2)
    else (false, [(h.id, n)])

/-- `ChainNotificationHandler::register_handler`: push onto the list. -/
def register_handler (handlers : List Handler) (h : Handler) : List Handler :=
  handlers ++ [h]

/-- `Blockchain::remove_notification_handler`: acquires the registry lock and
returns `Ok(())` without touching the list (the body is a TODO). -/
def remove_notification_handler (handlers : List Handler) (_h : Handler) :
    Except String Unit × List Handler :=
  (Except.ok (), handlers)

/-- Outcome of an inbound notification method, as seen by the node peer. -/
inductive PeerReply
  | ok
  | decodeError
  | dispatchError
  deriving DecidableEq

/-- Inbound `block_connected`: decode the carried consensus bytes with
`Block::consensus_decode` (which tolerates a trailing remainder); on failure
return a decode error to the peer without dispatching; on success dispatch
`BlockConnected` and surface a dispatch failure as an error reply.  The
second component is the list of events handed to `dispatch_notification`. -/
def block_connected (handlers : List Handler) (data : List Byte) :
    PeerReply × List ChainNotification :=
  match decodeBlock data with
  | none => (PeerReply.decodeError, [])
  | some (b, _rest) =>
    let d := dispatch_notification handlers (ChainNotification.BlockConnected b)
    (if d.1 then PeerReply.ok else PeerReply.dispatchError,
      [ChainNotification.BlockConnected b])

/-- Number of handlers `dispatch_notification` invokes: everything up to and
including the first failing handler. -/
def invokedCount (handlers : List Handler) (n : ChainNotification) : Nat :=
  match handlers with
  | [] => 0
  | h :: rest => if h.respond n then invokedCount rest n + 1 else 1

/-! ## Chain IPC (`blocktalk/src/chain.rs`) -/

inductive ChainErrorKind
  | BlockNotFound
  | InvalidHeight
  | DeserializationFailed
  | InvalidAncestor
  | InvalidBlockData
  deriving DecidableEq

/-- `BlockTalkError`, restricted to the variants reachable from the modelled
operations (payload messages are not tracked). -/
inductive BlockTalkError
  | Connection
  | Chain (kind : ChainErrorKind)
  deriving DecidableEq

/-- The node's `FindBlock` reply for a requested hash. -/
structure FindBlockReply where
  hasData : Bool
  data : List Byte
  inActiveChain : Int
  deriving DecidableEq

/-- `Blockchain::get_block_by_hash`: issue `find_block`; a failed request is
a chain error; a reply without data (or with empty data) is `Ok(None)`;
otherwise strictly deserialize (`bitcoin::consensus::deserialize`), with
failure surfaced as `DeserializationFailed`. -/
def get_block_by_hash (reply : Except String FindBlockReply) :
    Except BlockTalkError (Option Block) :=
  match reply with
  | Except.error _ => Except.error (BlockTalkError.Chain ChainErrorKind.BlockNotFound)
  | Except.ok bi =>
    if !bi.hasData || bi.data.isEmpty then Except.ok none
    else
      match deserializeBlock bi.data with
      | some b => Except.ok (some b)
      | none => Except.error (BlockTalkError.Chain ChainErrorKind.DeserializationFailed)

/-! ## Wallet daemon (`bitcoin-wallet`)

`WalletInterface` (`wallet/interface.rs`) owns an optional current wallet.
The bdk-backed `ThreadSafeWallet` (its Rust definition lives in the
commented-out `wallet/database.rs` and the external `bdk_wallet` crate) is
modelled by the state the interface reads and writes: the bdk balance, the
external-keychain derivation index and descriptor, the latest checkpoint,
the unspent/transaction views and the ownership predicate used by
`process_transaction`.  bdk's `reveal_next_address` derives the address
deterministically from the descriptor and the next unused index and
advances that index; the derived address is represented by that
(descriptor, index) pair.  Outcomes of external collaborators — the
RNG-backed `generate_descriptors`, the sqlite store, `BlockTalk::init`
plus `get_tip`, per-height `get_block` replies, and bdk's `apply_block` —
are parameters. -/

/-- bdk's `Balance` as read by `get_balance`. -/
structure BdkBalance where
  immature : Nat
  trustedPending : Nat
  untrustedPending : Nat
  confirmed : Nat
  deriving DecidableEq

/-- A derived receive address: bdk derivation is a deterministic function of
the descriptor and the derivation index. -/
structure Address where
  descriptor : String
  index : Nat
  deriving DecidableEq

/-- bdk's `LocalOutput` as returned by `list_unspent` (identity fields). -/
structure LocalOutput where
  txid : List Byte
  vout : Nat
  value : Nat
  deriving DecidableEq

structure ThreadSafeWallet where
  externalDescriptor : String
  nextExternalIndex : Nat
  balance : BdkBalance
  checkpointHeight : Nat
  checkpointHash : List Byte
  unspent : List LocalOutput
  txs : List Transaction
  isMine : List Byte → Bool

/-- `WalletInterface` state: the optional current wallet. -/
structure WState where
  wallet : Option ThreadSafeWallet

/-- `WalletError` (`src/error.rs`), with payloads reduced to the strings
interpolated by the `thiserror` display attributes. -/
inductive WalletError
  | BlocktalkError (s : String)
  | BitcoinError (s : String)
  | IOError (s : String)
  | RPCError (s : String)
  | ConfigError (s : String)
  | DatabaseError (s : String)
  | TransactionNotFound (txid : String)
  | InvalidDescriptor (s : String)
  | KeyDerivationFailed
  | UnsupportedOperation (s : String)
  | Generic (s : String)
  | PassphraseError (s : String)
  deriving DecidableEq

/-- The `Display` implementation generated by the `#[error(...)]`
attributes on `WalletError`. -/
def walletErrorDisplay : WalletError → String
  | WalletError.BlocktalkError s => "Blocktalk error: " ++ s
  | WalletError.BitcoinError s => "Bitcoin error: " ++ s
  | WalletError.IOError s => "I/O error: " ++ s
  | WalletError.RPCError s => "RPC error: " ++ s
  | WalletError.ConfigError s => "Configuration error: " ++ s
  | WalletError.DatabaseError s => "Database error: " ++ s
  | WalletError.TransactionNotFound t => "Transaction not found: " ++ t
  | WalletError.InvalidDescriptor s => "Invalid descriptor: " ++ s
  | WalletError.KeyDerivationFailed => "Key derivation failed"
  | WalletError.UnsupportedOperation s => "Unsupported operation: " ++ s
  | WalletError.Generic s => s
  | WalletError.PassphraseError s => "Passphrase error: " ++ s

/-- `jsonrpc_core::Error` as observed by RPC clients: code and message. -/
structure RpcError where
  code : Int
  message : String
  deriving DecidableEq

/-- `jsonrpc_core`'s `Error::new(ErrorCode::InternalError)`: code −32603
with the code's fixed description as message. -/
def rpcInternalError : RpcError := ⟨-32603, "Internal error"⟩

/-- `jsonrpc_core`'s `Error::invalid_params(msg)`: code −32602. -/
def rpcInvalidParams (msg : String) : RpcError := ⟨-32602, msg⟩

/-- `rpc_error_from_wallet_error` (`rpc/error.rs`): the body is
`RpcError::new(ErrorCode::InternalError)`; the wallet error is dropped. -/
def rpc_error_from_wallet_error (_e : WalletError) : RpcError := rpcInternalError

/-- `CreateWalletOptions` (`wallet/types.rs`). -/
structure CreateWalletOptions where
  wallet_name : String
  disable_private_keys : Bool
  blank : Bool
  passphrase : Option String
  avoid_reuse : Bool
  descriptors : Bool
  load_on_startup : Bool

/-- The `Default` instance of `CreateWalletOptions`. -/
def CreateWalletOptions.default : CreateWalletOptions :=
  ⟨"", false, false, none, false, true, false⟩

/-- `WalletInterface::get_current_wallet`. -/
def get_current_wallet (st : WState) : Except WalletError ThreadSafeWallet :=
  match st.wallet with
  | some w => Except.ok w
  | none => Except.error (WalletError.Generic "No wallet loaded")

/-- `WalletInterface::create_wallet`: choose placeholder descriptors when
`blank`, otherwise take the outcome of the RNG-backed
`generate_descriptors` (`genDescriptors`); create the persisted wallet
through the store (`dbCreate`, the outcome of
`WalletDatabase::create_wallet`); on success install it as the current
wallet.  No field of `options` other than `blank` is consulted. -/
def create_wallet (genDescriptors : Except WalletError (String × String))
    (dbCreate : String → String → Except WalletError ThreadSafeWallet)
    (options : CreateWalletOptions) (st : WState) :
    Except WalletError Unit × WState :=
  match (if options.blank then Except.ok ("wpkh()", "wpkh()")
         else genDescriptors) with
  | Except.error e => (Except.error e, st)
  | Except.ok ds =>
    match dbCreate ds.1 ds.2 with
    | Except.error e => (Except.error e, st)
    | Except.ok pw => (Except.ok (), { st with wallet := some pw })

/-- bdk's `reveal_next_address(KeychainKind::External)`: the address at the
next unused external index, advancing the index. -/
def reveal_next_address (w : ThreadSafeWallet) : Address × ThreadSafeWallet :=
  (⟨w.externalDescriptor, w.nextExternalIndex⟩,
    { w with nextExternalIndex := w.nextExternalIndex + 1 })

/-- `WalletInterface::get_new_address`: requires a current wallet, reveals
the next external address (the label is only logged). -/
def get_new_address (st : WState) (_label : Option String) :
    Except WalletError Address × WState :=
  match st.wallet with
  | none => (Except.error (WalletError.Generic "No wallet loaded"), st)
  | some w =>
    let p := reveal_next_address w
    (Except.ok p.1, { st with wallet := some p.2 })

/-- `WalletBalance` (`wallet/types.rs`), as populated by `get_balance`;
amounts as signed satoshi counts. -/
structure WalletBalance where
  confirmed : Int
  unconfirmed : Int
  immature : Int
  total : Int
  deriving DecidableEq

/-- `WalletInterface::get_balance`: read the bdk balance of the current
wallet; `unconfirmed` is bdk's `untrusted_pending` and `total` is the sum
of the three reported components. -/
def get_balance (st : WState) : Except WalletError WalletBalance × WState :=
  match st.wallet with
  | none => (Except.error (WalletError.Generic "No wallet loaded"), st)
  | some w =>
    (Except.ok
      ⟨(w.balance.confirmed : Int), (w.balance.untrustedPending : Int),
        (w.balance.immature : Int),
        (w.balance.confirmed : Int) + (w.balance.untrustedPending : Int) +
          (w.balance.immature : Int)⟩, st)

/-- `WalletInterface::list_unspent`. -/
def list_unspent (st : WState) : Except WalletError (List LocalOutput) × WState :=
  match st.wallet with
  | none => (Except.error (WalletError.Generic "No wallet loaded"), st)
  | some w => (Except.ok w.unspent, st)

/-- `WalletInterface::list_transactions`. -/
def list_transactions (st : WState) : Except WalletError (List Transaction) × WState :=
  match st.wallet with
  | none => (Except.error (WalletError.Generic "No wallet loaded"), st)
  | some w => (Except.ok w.txs, st)

/-- `WalletInterface::process_transaction`: requires a current wallet;
computes output-script relevance, but only logs and returns `Ok(())`
(metadata storage is a TODO in the source). -/
def process_transaction (st : WState) (tx : Transaction)
    (_block_height : Option Int) : Except WalletError Unit × WState :=
  match st.wallet with
  | none => (Except.error (WalletError.Generic "No wallet loaded"), st)
  | some w =>
    let _is_relevant := tx.output.any fun o => w.isMine o.script_pubkey
    (Except.ok (), st)

/-- The node as seen through a connected `BlockTalk` facade: the tip
returned by `get_tip` and the per-height outcome of
`chain().get_block(tip_hash, h)`. -/
structure NodeView where
  tipHeight : Int
  tipHash : List Byte
  getBlock : Int → Option Block

/-- Rust's `as u32` cast on an `i32` height. -/
def u32ofInt (h : Int) : Nat := (h % (2 ^ 32 : Int)).toNat

/-- The body of `sync_wallet`'s `for height in start..=tip` loop: a failed
block fetch is skipped (`if let Ok(block)`), a failed apply aborts with a
`Generic` error, leaving the mutations already made in place. -/
def syncLoop (applyBlock : ThreadSafeWallet → Block → Nat → Except String ThreadSafeWallet)
    (nv : NodeView) (w : ThreadSafeWallet) (h : Int) :
    Nat → Except WalletError Unit × ThreadSafeWallet
  | 0 => (Except.ok (), w)
  | n + 1 =>
    match nv.getBlock h with
    | none => syncLoop applyBlock nv w (h + 1) n
    | some b =>
      match applyBlock w b (u32ofInt h) with
      | Except.error e =>
        (Except.error (WalletError.Generic ("Failed to apply block: " ++ e)), w)
      | Except.ok w' => syncLoop applyBlock nv w' (h + 1) n

/-- `WalletInterface::sync_wallet`: connect (`node = none` models a failed
`BlockTalk::init`/`get_tip`), read the tip, require a current wallet, then
apply blocks from `checkpoint.height + 1` through the tip. -/
def sync_wallet (applyBlock : ThreadSafeWallet → Block → Nat → Except String ThreadSafeWallet)
    (node : Option NodeView) (st : WState) : Except WalletError Unit × WState :=
  match node with
  | none => (Except.error (WalletError.BlocktalkError "connection failed"), st)
  | some nv =>
    match st.wallet with
    | none => (Except.error (WalletError.Generic "No wallet loaded"), st)
    | some w =>
      let start := (w.checkpointHeight : Int) + 1
      let res := syncLoop applyBlock nv w start (nv.tipHeight - start + 1).toNat
      match res with
      | (Except.error e, w') => (Except.error e, { st with wallet := some w' })
      | (Except.ok _, w') => (Except.ok (), { st with wallet := some w' })

/-- The body of `rescan_blockchain`'s `for height in start..=actual_stop`
loop; identical to the sync loop up to the error message. -/
def rescanLoop (applyBlock : ThreadSafeWallet → Block → Nat → Except String ThreadSafeWallet)
    (nv : NodeView) (w : ThreadSafeWallet) (h : Int) :
    Nat → Except WalletError Unit × ThreadSafeWallet
  | 0 => (Except.ok (), w)
  | n + 1 =>
    match nv.getBlock h with
    | none => rescanLoop applyBlock nv w (h + 1) n
    | some b =>
      match applyBlock w b (u32ofInt h) with
      | Except.error e =>
        (Except.error
          (WalletError.Generic ("Failed to apply block during rescan: " ++ e)), w)
      | Except.ok w' => rescanLoop applyBlock nv w' (h + 1) n

/-- `WalletInterface::rescan_blockchain` (`wallet/interface.rs:223`):
connect and read the tip; clamp the stop height to the tip (defaulting to
the tip); require a current wallet; apply every available block in
`start..=actual_stop` (no validation of the range and no state reset —
the reset is a comment in the source); return
`(start_height, actual_stop_height)`. -/
def rescan_blockchain
    (applyBlock : ThreadSafeWallet → Block → Nat → Except String ThreadSafeWallet)
    (node : Option NodeView) (st : WState)
    (start_height : Int) (stop_height : Option Int) :
    Except WalletError (Int × Int) × WState :=
  match node with
  | none => (Except.error (WalletError.BlocktalkError "connection failed"), st)
  | some nv =>
    let actual_stop := min (stop_height.getD nv.tipHeight) nv.tipHeight
    match st.wallet with
    | none => (Except.error (WalletError.Generic "No wallet loaded"), st)
    | some w =>
      let res := rescanLoop applyBlock nv w start_height
        (actual_stop - start_height + 1).toNat
      match res with
      | (Except.error e, w') => (Except.error e, { st with wallet := some w' })
      | (Except.ok _, w') =>
        (Except.ok (start_height, actual_stop), { st with wallet := some w' })

/-- The `getnewaddress` RPC worker (`rpc/handlers.rs:180`), after parameter
extraction: an address type outside the accepted set is an invalid-params
error; an accepted non-bech32 type only logs a warning (returned here as
the third component); the wallet call is then made without the type. -/
def rpc_getnewaddress (st : WState) (label : Option String)
    (address_type : Option String) :
    Except RpcError Address × WState × List String :=
  match address_type with
  | some atype =>
    if atype = "legacy" ∨ atype = "p2sh-segwit" ∨ atype = "bech32" then
      let warnings :=
        if atype ≠ "bech32" then
          ["Ignoring address_type, always returning bech32"]
        else []
      match get_new_address st label with
      | (Except.ok a, st') => (Except.ok a, st', warnings)
      | (Except.error e, st') =>
        (Except.error (rpc_error_from_wallet_error e), st', warnings)
    else
      (Except.error (rpcInvalidParams "Invalid address type"), st, [])
  | none =>
    match get_new_address st label with
    | (Except.ok a, st') => (Except.ok a, st', [])
    | (Except.error e, st') =>
      (Except.error (rpc_error_from_wallet_error e), st', [])

/-! ## Concrete fixtures used by witnesses and counterexamples -/

def zeroHash : List Byte := List.replicate 32 (0 : Byte)

def sampleHeader : Header := ⟨0, zeroHash, zeroHash, 0, 0, 0⟩

/-- A minimal well-formed block: all-zero header, no transactions. -/
def sampleBlock : Block := ⟨sampleHeader, []⟩

def sampleWallet : ThreadSafeWallet :=
  ⟨"wpkh(xprv0/0/*)", 0, ⟨0, 0, 0, 0⟩, 0, zeroHash, [], [], fun _ => false⟩

def sampleNode : NodeView := ⟨20, zeroHash, fun _ => none⟩

def sampleApply : ThreadSafeWallet → Block → Nat → Except String ThreadSafeWallet :=
  fun w _ _ => Except.ok w

def handlerOk : Handler := ⟨7, fun _ => true⟩

def handlerFail : Handler := ⟨0, fun _ => false⟩

def handlerAfter : Handler := ⟨1, fun _ => true⟩

/-! ## Claim theorems -/

/-- C6 (amended): `rpc_error_from_wallet_error` maps every `WalletError` to
the bare internal-error reply, code −32603 with the fixed message
"Internal error"; the error's display string is discarded. -/
theorem rpc_error_constant (e : WalletError) :
    rpc_error_from_wallet_error e = ⟨-32603, "Internal error"⟩ := rfl

/-- C6 counterexample: for a broadcast-rejection style error, the JSON-RPC
message is not the error's display string, refuting the claimed mapping at
this input. -/
theorem rpc_error_message_cex :
    (rpc_error_from_wallet_error
        (WalletError.Generic "transaction rejected: insufficient fee")).message ≠
      walletErrorDisplay
        (WalletError.Generic "transaction rejected: insufficient fee") ∧
    (rpc_error_from_wallet_error
        (WalletError.Generic "transaction rejected: insufficient fee")).code = -32603 := by
  exact ⟨by decide, rfl⟩

/-- C5 (amended): `create_wallet` never consults `options.descriptors`:
a request with `descriptors = false` behaves identically to the same
request with `descriptors = true` (same result, same resulting state);
in particular it does not fail with `UnsupportedOperation`. -/
theorem create_wallet_ignores_descriptors
    (genDescriptors : Except WalletError (String × String))
    (dbCreate : String → String → Except WalletError ThreadSafeWallet)
    (options : CreateWalletOptions) (st : WState) :
    create_wallet genDescriptors dbCreate options st =
      create_wallet genDescriptors dbCreate { options with descriptors := true } st := by
  cases options
  rfl

/-- C5 counterexample: a concrete `CreateWalletOptions` with
`descriptors = false` on which `create_wallet` succeeds and installs a
current wallet, refuting "fails with UnsupportedOperation and creates no
wallet". -/
theorem create_wallet_descriptors_false_cex :
    create_wallet (Except.ok ("", ""))
        (fun _ _ => Except.ok sampleWallet)
        { CreateWalletOptions.default with
            wallet_name := "w1", blank := true, descriptors := false }
        ⟨none⟩ =
      (Except.ok (), ⟨some sampleWallet⟩) ∧
    (some sampleWallet ≠ (none : Option ThreadSafeWallet)) := by
  exact ⟨rfl, by simp⟩

/-- C7: whenever `get_balance` succeeds, the returned `WalletBalance`
satisfies `total = confirmed + unconfirmed + immature` exactly, and every
component is non-negative (they are bdk `u64` amounts). -/
theorem get_balance_additivity (st : WState) (wb : WalletBalance) (st' : WState)
    (h : get_balance st = (Except.ok wb, st')) :
    wb.total = wb.confirmed + wb.unconfirmed + wb.immature ∧
      0 ≤ wb.confirmed ∧ 0 ≤ wb.unconfirmed ∧ 0 ≤ wb.immature := by
  unfold get_balance at h
  cases hw : st.wallet with
  | none => rw [hw] at h; simp at h
  | some w =>
    rw [hw] at h
    simp only [Prod.mk.injEq, Except.ok.injEq] at h
    obtain ⟨hwb, _⟩ := h
    subst hwb
    refine ⟨rfl, ?_, ?_, ?_⟩ <;> exact Int.natCast_nonneg _

/-- C7 witness: `get_balance` on a concrete loaded wallet. -/
theorem get_balance_additivity_witness :
    get_balance ⟨some sampleWallet⟩ =
      (Except.ok ⟨0, 0, 0, 0⟩, ⟨some sampleWallet⟩) ∧
    ((0 : Int) = 0 + 0 + 0 ∧ (0 : Int) ≤ 0 ∧ (0 : Int) ≤ 0 ∧ (0 : Int) ≤ 0) := by
  refine ⟨rfl, ?_⟩
  exact get_balance_additivity ⟨some sampleWallet⟩ ⟨0, 0, 0, 0⟩ ⟨some sampleWallet⟩ rfl

/-- C9: with no current wallet, every wallet-requiring operation returns
`Generic "No wallet loaded"` and leaves the state unchanged
(`sync_wallet` and `rescan_blockchain` reach the wallet check only after
the node connection, so they are stated under a reachable node). -/
theorem no_wallet_loaded_errors (st : WState) (h : st.wallet = none) :
    (∀ label, get_new_address st label =
      (Except.error (WalletError.Generic "No wallet loaded"), st)) ∧
    get_balance st = (Except.error (WalletError.Generic "No wallet loaded"), st) ∧
    list_unspent st = (Except.error (WalletError.Generic "No wallet loaded"), st) ∧
    list_transactions st =
      (Except.error (WalletError.Generic "No wallet loaded"), st) ∧
    (∀ tx bh, process_transaction st tx bh =
      (Except.error (WalletError.Generic "No wallet loaded"), st)) ∧
    (∀ applyBlock nv, sync_wallet applyBlock (some nv) st =
      (Except.error (WalletError.Generic "No wallet loaded"), st)) ∧
    (∀ applyBlock nv start stop,
      rescan_blockchain applyBlock (some nv) st start stop =
        (Except.error (WalletError.Generic "No wallet loaded"), st)) := by
  obtain ⟨ow⟩ := st
  cases ow with
  | some w => simp at h
  | none =>
    refine ⟨fun _ => rfl, rfl, rfl, rfl, fun _ _ => rfl, fun _ _ => rfl,
      fun _ _ _ _ => rfl⟩

/-- C9 witness: the empty interface state at a concrete operation. -/
theorem no_wallet_loaded_witness :
    get_balance ⟨none⟩ =
      (Except.error (WalletError.Generic "No wallet loaded"), ⟨none⟩) ∧
    rescan_blockchain sampleApply (some sampleNode) ⟨none⟩ 0 none =
      (Except.error (WalletError.Generic "No wallet loaded"), ⟨none⟩) :=
  ⟨(no_wallet_loaded_errors ⟨none⟩ rfl).2.1,
    (no_wallet_loaded_errors ⟨none⟩ rfl).2.2.2.2.2.2 sampleApply sampleNode 0 none⟩

/-- C10: `remove_notification_handler` returns `Ok(())` and does not touch
the registry: the handler list is unchanged, a registered handler is still
registered, and every subsequent dispatch behaves exactly as before the
call. -/
theorem remove_notification_handler_noop (handlers : List Handler) (h : Handler) :
    remove_notification_handler handlers h = (Except.ok (), handlers) ∧
    (h ∈ handlers → h ∈ (remove_notification_handler handlers h).2) ∧
    ∀ n, dispatch_notification (remove_notification_handler handlers h).2 n =
      dispatch_notification handlers n :=
  ⟨rfl, fun hm => hm, fun _ => rfl⟩

/-- C10 witness: removing a concretely registered handler leaves it
registered. -/
theorem remove_notification_handler_witness :
    remove_notification_handler [handlerOk] handlerOk = (Except.ok (), [handlerOk]) ∧
    handlerOk ∈ (remove_notification_handler [handlerOk] handlerOk).2 :=
  ⟨(remove_notification_handler_noop [handlerOk] handlerOk).1,
    (remove_notification_handler_noop [handlerOk] handlerOk).2.1 (by simp)⟩

/-- C1 (amended): `rescan_blockchain` performs no range validation.  When
the clamped stop height (`min(stop_height or tip, tip)`) is below
`start_height`, the block loop is empty and the call returns
`Ok((start_height, actual_stop))` with the wallet state unchanged — it
never fails with an invalid-params error (no such check exists, and
`WalletError` has no invalid-params case). -/
theorem rescan_no_range_validation
    (applyBlock : ThreadSafeWallet → Block → Nat → Except String ThreadSafeWallet)
    (nv : NodeView) (st : WState) (w : ThreadSafeWallet)
    (start : Int) (stop : Option Int)
    (hw : st.wallet = some w)
    (hlt : min (stop.getD nv.tipHeight) nv.tipHeight < start) :
    rescan_blockchain applyBlock (some nv) st start stop =
      (Except.ok (start, min (stop.getD nv.tipHeight) nv.tipHeight), st) := by
  obtain ⟨ow⟩ := st
  simp only at hw
  subst hw
  have hcount : (min (stop.getD nv.tipHeight) nv.tipHeight - start + 1).toNat = 0 := by
    omega
  simp only [rescan_blockchain, hcount, rescanLoop]

/-- C1 witness: the amended statement at the spec's own E4 inputs
(start = 10, stop = 5, tip = 20). -/
theorem rescan_no_range_validation_witness :
    rescan_blockchain sampleApply (some sampleNode) ⟨some sampleWallet⟩ 10 (some 5) =
      (Except.ok (10, min ((some (5 : Int)).getD sampleNode.tipHeight)
        sampleNode.tipHeight), ⟨some sampleWallet⟩) :=
  rescan_no_range_validation sampleApply sampleNode ⟨some sampleWallet⟩ sampleWallet
    10 (some 5) rfl (by decide)

/-- C1 counterexample: `rescanblockchain(start=10, stop=5)` (the spec's E4
scenario) returns successfully with `Ok((10, 5))` instead of the claimed
invalid-params failure. -/
theorem rescan_stop_below_start_cex :
    rescan_blockchain sampleApply (some sampleNode) ⟨some sampleWallet⟩ 10 (some 5) =
      (Except.ok (10, 5), ⟨some sampleWallet⟩) := rfl

/-- C3: `get_block_by_hash` returns `Ok(None)` when the `find_block` reply
carries no data or empty data; a strict-deserialization failure of carried
bytes is the `DeserializationFailed` chain error; decodable bytes yield
`Ok(Some(block))`. -/
theorem get_block_by_hash_cases (bi : FindBlockReply) :
    ((bi.hasData = false ∨ bi.data = []) →
      get_block_by_hash (Except.ok bi) = Except.ok none) ∧
    (bi.hasData = true → bi.data ≠ [] → deserializeBlock bi.data = none →
      get_block_by_hash (Except.ok bi) =
        Except.error (BlockTalkError.Chain ChainErrorKind.DeserializationFailed)) ∧
    (∀ b, bi.hasData = true → bi.data ≠ [] → deserializeBlock bi.data = some b →
      get_block_by_hash (Except.ok bi) = Except.ok (some b)) := by
  refine ⟨?_, ?_, ?_⟩
  · rintro (hf | he)
    · simp [get_block_by_hash, hf]
    · simp [get_block_by_hash, he]
  · intro ht hne hd
    simp [get_block_by_hash, ht, List.isEmpty_iff, hne, hd]
  · intro b ht hne hd
    simp [get_block_by_hash, ht, List.isEmpty_iff, hne, hd]

/-- C3 witness: a reply carrying the encoding of a concrete block is
decoded to `Ok(Some(block))`; an absent-data reply yields `Ok(None)`. -/
theorem get_block_by_hash_witness :
    get_block_by_hash (Except.ok ⟨true, encodeBlock sampleBlock, 1⟩) =
      Except.ok (some sampleBlock) ∧
    get_block_by_hash (Except.ok ⟨false, [], 0⟩) = Except.ok none :=
  ⟨(get_block_by_hash_cases ⟨true, encodeBlock sampleBlock, 1⟩).2.2 sampleBlock
      rfl (by decide) rfl,
    (get_block_by_hash_cases ⟨false, [], 0⟩).1 (Or.inl rfl)⟩

/-- C4: a `getnewaddress` request with an accepted non-bech32
`address_type` ("legacy" or "p2sh-segwit") does not fail on account of the
type: the worker logs a warning, ignores the type, and produces exactly the
result and state of the same request with no `address_type`. -/
theorem getnewaddress_nonbech32_coerced (st : WState) (label : Option String)
    (atype : String) (h : atype = "legacy" ∨ atype = "p2sh-segwit") :
    rpc_getnewaddress st label (some atype) =
      ((rpc_getnewaddress st label none).1,
        (rpc_getnewaddress st label none).2.1,
        ["Ignoring address_type, always returning bech32"]) := by
  have hmem : atype = "legacy" ∨ atype = "p2sh-segwit" ∨ atype = "bech32" := by
    tauto
  have hne : atype ≠ "bech32" := by
    rcases h with rfl | rfl <;> decide
  unfold rpc_getnewaddress
  dsimp only
  rw [if_pos hmem]
  rw [if_pos hne]
  cases hg : get_new_address st label with
  | mk res st2 => cases res <;> simp [hg]

/-- C4 witness: a "legacy" request on a concrete loaded wallet. -/
theorem getnewaddress_nonbech32_witness :
    rpc_getnewaddress ⟨some sampleWallet⟩ none (some "legacy") =
      ((rpc_getnewaddress ⟨some sampleWallet⟩ none none).1,
        (rpc_getnewaddress ⟨some sampleWallet⟩ none none).2.1,
        ["Ignoring address_type, always returning bech32"]) :=
  getnewaddress_nonbech32_coerced ⟨some sampleWallet⟩ none "legacy" (Or.inl rfl)

/-- C2 (amended): `dispatch_notification` invokes the registered handlers
sequentially in registration order with the same event, but only up to and
including the first handler that fails: a handler error aborts the fan-out,
so later handlers are not invoked, and dispatch (hence the peer method,
e.g. `block_connected`) reports success only when decoding succeeded and
every handler succeeded. -/
theorem dispatch_stops_at_first_failure (handlers : List Handler)
    (n : ChainNotification) :
    (dispatch_notification handlers n).2 =
      (handlers.take (invokedCount handlers n)).map (fun h => (h.id, n)) ∧
    ((dispatch_notification handlers n).1 = true ↔
      ∀ h ∈ handlers, h.respond n = true) ∧
    ∀ B b rest, decodeBlock B = some (b, rest) →
      ((block_connected handlers B).1 = PeerReply.ok ↔
        ∀ h ∈ handlers, h.respond (ChainNotification.BlockConnected b) = true) := by
  have main : ∀ m : ChainNotification,
      (dispatch_notification handlers m).2 =
        (handlers.take (invokedCount handlers m)).map (fun h => (h.id, m)) ∧
      ((dispatch_notification handlers m).1 = true ↔
        ∀ h ∈ handlers, h.respond m = true) := by
    intro m
    induction handlers with
    | nil => simp [dispatch_notification, invokedCount]
    | cons h hs ih =>
      by_cases hr : h.respond m
      · constructor
        · simp only [dispatch_notification, invokedCount, if_pos hr,
            List.take_succ_cons, List.map_cons]
          rw [ih.1]
        · simp only [dispatch_notification, if_pos hr, List.forall_mem_cons]
          rw [ih.2]
          simp [hr]
      · constructor
        · simp [dispatch_notification, invokedCount, if_neg hr, hr]
        · simp only [dispatch_notification, if_neg hr, List.forall_mem_cons]
          simp [hr]
  refine ⟨(main n).1, (main n).2, ?_⟩
  intro B b rest hdec
  have h2 := (main (ChainNotification.BlockConnected b)).2
  unfold block_connected
  rw [hdec]
  dsimp only
  by_cases hd : (dispatch_notification handlers
      (ChainNotification.BlockConnected b)).1 = true
  · rw [if_pos hd]
    exact ⟨fun _ => h2.mp hd, fun _ => rfl⟩
  · rw [if_neg hd]
    constructor
    · intro hcon
      exact absurd hcon (by simp)
    · intro hall
      exact absurd (h2.mpr hall) hd

/-- C2 witness: the peer-reply equivalence of the amended statement at a
concrete decodable input with one succeeding handler. -/
theorem dispatch_stops_witness :
    ((block_connected [handlerOk] (encodeBlock sampleBlock)).1 = PeerReply.ok ↔
      ∀ h ∈ [handlerOk],
        h.respond (ChainNotification.BlockConnected sampleBlock) = true) :=
  (dispatch_stops_at_first_failure [handlerOk]
      ChainNotification.ChainStateFlushed).2.2
    (encodeBlock sampleBlock) sampleBlock [] rfl

/-- C2 counterexample: with a failing handler registered before a second
handler, dispatch invokes only the first handler — the second is never
invoked with the event — and dispatch fails, so `block_connected` on a
decodable block returns an error to the peer instead of the claimed
success. -/
theorem dispatch_short_circuit_cex :
    dispatch_notification [handlerFail, handlerAfter]
        ChainNotification.ChainStateFlushed =
      (false, [(0, ChainNotification.ChainStateFlushed)]) ∧
    (1, ChainNotification.ChainStateFlushed) ∉
      (dispatch_notification [handlerFail, handlerAfter]
        ChainNotification.ChainStateFlushed).2 ∧
    (block_connected [handlerFail, handlerAfter] (encodeBlock sampleBlock)).1 =
      PeerReply.dispatchError := by
  refine ⟨rfl, by decide, rfl⟩

/-- C8 (amended): an inbound `block_connected` carrying bytes `B` on which
`Block::consensus_decode` succeeds (in particular any valid consensus
encoding, which decodes fully to the encoded block) dispatches exactly
`BlockConnected(b)` where the re-serialization of `b` is the consumed
prefix of `B`; when decoding fails, no event is dispatched and a decode
error is returned to the peer.  (Because the decoder tolerates trailing
bytes, a `B` that is a valid encoding followed by garbage still
dispatches the decoded prefix — see the counterexample.) -/
theorem block_connected_roundtrip (handlers : List Handler) (B : List Byte) :
    (∀ b rest, decodeBlock B = some (b, rest) →
      (block_connected handlers B).2 = [ChainNotification.BlockConnected b] ∧
      B = encodeBlock b ++ rest) ∧
    (decodeBlock B = none →
      block_connected handlers B = (PeerReply.decodeError, [])) ∧
    (∀ b, WFBlock b → encodeBlock b = B → decodeBlock B = some (b, [])) := by
  refine ⟨?_, ?_, ?_⟩
  · intro b rest hd
    refine ⟨?_, decodeBlock_sound B b rest hd⟩
    unfold block_connected
    rw [hd]
  · intro hd
    unfold block_connected
    rw [hd]
  · intro b hwf henc
    rw [← henc]
    simpa using decodeBlock_complete b [] hwf

theorem sampleBlock_wf : WFBlock sampleBlock := by
  refine ⟨⟨?_, ?_, ?_, ?_, ?_, ?_⟩, ?_, ?_⟩ <;>
    norm_num [sampleBlock, sampleHeader, zeroHash]

/-- C8 witness: the round-trip at a concrete well-formed block. -/
theorem block_connected_roundtrip_witness :
    WFBlock sampleBlock ∧
    decodeBlock (encodeBlock sampleBlock) = some (sampleBlock, []) ∧
    (block_connected [] (encodeBlock sampleBlock)).2 =
      [ChainNotification.BlockConnected sampleBlock] := by
  have hwf : WFBlock sampleBlock := sampleBlock_wf
  refine ⟨hwf,
    (block_connected_roundtrip [] (encodeBlock sampleBlock)).2.2 sampleBlock hwf rfl,
    ?_⟩
  exact ((block_connected_roundtrip [] (encodeBlock sampleBlock)).1 sampleBlock []
    ((block_connected_roundtrip [] (encodeBlock sampleBlock)).2.2 sampleBlock
      hwf rfl)).1

/-- A valid block encoding followed by one trailing byte: not itself a
valid consensus encoding of any (representable, hence well-formed) block. -/
def junkBytes : List Byte := encodeBlock sampleBlock ++ [byteOfNat 0]

/-- C8 counterexample: `junkBytes` is not a valid consensus encoding of any
block, yet `block_connected` dispatches `BlockConnected` for its decodable
prefix and does not return a decode error — refuting the claim's
"no event is dispatched and a decode error is returned" branch. -/
theorem block_connected_trailing_cex :
    (∀ b, WFBlock b → encodeBlock b ≠ junkBytes) ∧
    (block_connected [] junkBytes).2 =
      [ChainNotification.BlockConnected sampleBlock] ∧
    (block_connected [] junkBytes).1 ≠ PeerReply.decodeError := by
  refine ⟨?_, rfl, by decide⟩
  intro b hwf hcon
  have h1 : decodeBlock junkBytes = some (b, []) := by
    rw [← hcon]
    simpa using decodeBlock_complete b [] hwf
  have h2 : decodeBlock junkBytes = some (sampleBlock, [byteOfNat 0]) := rfl
  rw [h1] at h2
  simp at h2
